import Mathlib

/-
Shallow embedding of the slpk2obj conversion tool (src/slpk/tools/slpk2obj.cpp).
Doubles are modelled as rationals; the sentinel infinities used by the extents
accumulator are modelled by the order completion of the rationals.  Data types
that this repository declares in headers that are not part of the shown tree
(slpk/types.hpp, the math and imgproc collaborators) are modelled from the
design document and carry a note saying so.
-/

namespace Slpk

/-- Extended rational line: rationals together with the two infinities, used to
model the IEEE double sentinels of the invalid extents value. -/
abbrev XQ : Type := WithBot (WithTop ℚ)

def XQ.ofQ (q : ℚ) : XQ := ((q : WithTop ℚ) : WithBot (WithTop ℚ))

def XQ.posInf : XQ := ((⊤ : WithTop ℚ) : WithBot (WithTop ℚ))

def XQ.negInf : XQ := (⊥ : WithBot (WithTop ℚ))

/-- Unwraps a finite extended rational. -/
def XQ.toQ : XQ → Option ℚ
  | some (some q) => some q
  | _ => none

abbrev Q2 : Type := ℚ × ℚ

abbrev Q3 : Type := ℚ × ℚ × ℚ

/-- Modelled from the spec: math::Extents2 of the external math collaborator,
an axis-aligned 2D box; invalid until the first point is merged. -/
@[ext]
structure Extents2 where
  ll : XQ × XQ
  ur : XQ × XQ
deriving DecidableEq

/-- Modelled from the spec: math::InvalidExtents, lower corner at plus
infinity and upper corner at minus infinity. -/
def invalidExtents : Extents2 :=
  ⟨(XQ.posInf, XQ.posInf), (XQ.negInf, XQ.negInf)⟩

/-- Modelled from the spec: math::update, merging one point into an extents
value by componentwise min of the lower and max of the upper corner. -/
def update (e : Extents2) (p : XQ × XQ) : Extents2 :=
  ⟨(min e.ll.1 p.1, min e.ll.2 p.2), (max e.ur.1 p.1, max e.ur.2 p.2)⟩

/-- Extents of a list of points, folded from the invalid extents value. -/
def extentsOfPoints (ps : List (XQ × XQ)) : Extents2 :=
  ps.foldl update invalidExtents

/-- The critical-section merge step of measureMesh: the ll and the ur corner
of a node-local extents value are merged into the shared accumulator. -/
def mergeCorners (g e : Extents2) : Extents2 :=
  update (update g e.ll) e.ur

/-- An extents value whose corners are ordered (holds for the extents of a
non-empty point list). -/
def validE (e : Extents2) : Prop :=
  e.ll.1 ≤ e.ur.1 ∧ e.ll.2 ≤ e.ur.2

/-- Modelled from the spec: a face of the geometry mesh, three vertex indices,
three texture-coordinate indices and the image identifier selecting the
Region the face samples (slpk/types.hpp is not part of the shown tree). -/
structure Face where
  va : Nat
  vb : Nat
  vc : Nat
  ta : Nat
  tb : Nat
  tc : Nat
  imageId : Nat
deriving DecidableEq

/-- Modelled from the spec: one mesh with vertices, texture coordinates and
faces. -/
structure Mesh where
  vertices : List Q3
  tCoords : List Q2
  faces : List Face
deriving DecidableEq

/-- Modelled from the spec: slpk::Region, an axis-aligned rectangle in
fixed-point 16-bit normalized texture coordinates. -/
structure Region where
  ll : Int × Int
  ur : Int × Int
deriving DecidableEq

/-- Modelled from the spec: slpk::SubMesh, one mesh plus the Region list of
its texture. -/
structure SubMesh where
  mesh : Mesh
  regions : List Region
deriving DecidableEq

/-- Modelled from the spec: one node of the scene tree with its level of
detail, its has-geometry flag and the geometry the archive stores for it. -/
structure Node where
  level : Int
  hasGeometry : Bool
  geometry : List SubMesh
deriving DecidableEq

def emptySubMesh : SubMesh := ⟨⟨[], [], []⟩, []⟩

def defNode : Node := ⟨0, false, []⟩

/-- All vertices loadGeometry feeds to a MeasureMesh loader for one node. -/
def nodeVertices (n : Node) : List Q3 :=
  n.geometry.flatMap (fun sm => sm.mesh.vertices)

/-- Projection of a converted 3D point to its x and y coordinates, as merged
into the 2D extents accumulator. -/
def proj2 (p : Q3) : XQ × XQ :=
  (XQ.ofQ p.1, XQ.ofQ p.2.1)

/-- The initial value of the topLevel scan in measureMesh,
std::numeric_limits of int, max. -/
def intMax : Int := 2147483647

/-- First scan of measureMesh: minimum level among nodes that have
geometry. -/
def topLevel (tree : List Node) : Int :=
  tree.foldl (fun acc n => if n.hasGeometry then min acc n.level else acc) intMax

/-- Second scan of measureMesh: the nodes whose level equals topLevel and
that have geometry. -/
def selectedNodes (tree : List Node) : List Node :=
  tree.filter (fun n => n.level == topLevel tree && n.hasGeometry)

/-- Node-local extents: every vertex is converted and its x,y projection is
merged into an initially invalid extents value. -/
def localExtents (conv : Q3 → Q3) (n : Node) : Extents2 :=
  (nodeVertices n).foldl (fun e v => update e (proj2 (conv v))) invalidExtents

/-- measureMesh of slpk2obj.cpp: topLevel selection, node-local accumulation
and the guarded corner merge into the shared extents value. -/
def measureMesh (conv : Q3 → Q3) (tree : List Node) : Extents2 :=
  (selectedNodes tree).foldl (fun g n => mergeCorners g (localExtents conv n)) invalidExtents

/-- Modelled from the spec: math::center of an extents value, the midpoint of
the two corners; junk value for a corner at infinity (the code would produce
a non-finite double there). -/
def centerOf (e : Extents2) : Q2 :=
  match XQ.toQ e.ll.1, XQ.toQ e.ll.2, XQ.toQ e.ur.1, XQ.toQ e.ur.2 with
  | some x0, some y0, some x1, some y1 => ((x0 + x1) / 2, (y0 + y1) / 2)
  | _, _, _, _ => (0, 0)

/-- Subtraction of the 2D center from a 3D point, as in the vertex
localization loop of write. -/
def subCenter (v : Q3) (c : Q2) : Q3 :=
  (v.1 - c.1, v.2.1 - c.2, v.2.2)

/-- The per-submesh localization step of write: every vertex is converted and
re-centered; texture coordinates and faces are untouched. -/
def localizeSubMesh (conv : Q3 → Q3) (c : Q2) (sm : SubMesh) : SubMesh :=
  ⟨⟨sm.mesh.vertices.map (fun v => subCenter (conv v) c), sm.mesh.tCoords, sm.mesh.faces⟩,
   sm.regions⟩

/-- The localization write performs for one node: every submesh is localized
with the center of the measured global extents. -/
def writeNode (conv : Q3 → Q3) (tree : List Node) (n : Node) : List SubMesh :=
  n.geometry.map (localizeSubMesh conv (centerOf (measureMesh conv tree)))

/-- The localization stage of write over the whole tree. -/
def writeAll (conv : Q3 → Q3) (tree : List Node) : List (List SubMesh) :=
  tree.map (writeNode conv tree)

/-- A finite axis-aligned box in pixel space (math::Extents2 restricted to
finite corners, as produced by the Region remap). -/
structure ExtentsQ where
  ll : Q2
  ur : Q2
deriving DecidableEq

/-- The scalar remap of slpk2obj.cpp: size times coord over 65535. -/
def remap (size : Int) (coord : Int) : ℚ :=
  (size : ℚ) * ((coord : ℚ) / 65535)

/-- The Region remap of slpk2obj.cpp: both corners of a Region are taken to
pixel space against the image size. -/
def remapRegion (size : Int × Int) (r : Region) : ExtentsQ :=
  ⟨(remap size.1 r.ll.1, remap size.2 r.ll.2),
   (remap size.1 r.ur.1, remap size.2 r.ur.2)⟩

/-- The texture-coordinate remap of slpk2obj.cpp: scale by the region size
per axis (the code mutates the coordinate in place). -/
def remapTc (rsize : Q2) (tc : Q2) : Q2 :=
  (tc.1 * rsize.1, tc.2 * rsize.2)

/-- Modelled from the spec: math::size of an extents value. -/
def sizeOfE (e : ExtentsQ) : Q2 :=
  (e.ur.1 - e.ll.1, e.ur.2 - e.ll.2)

/-- The pixel-space rectangles of all regions of a submesh. -/
def regionsPx (sm : SubMesh) (txSize : Int × Int) : List ExtentsQ :=
  sm.regions.map (remapRegion txSize)

/-- State of one visited-once pass over the faces: the seen bitmap, the
texture-coordinate array and an auxiliary accumulator. -/
structure MarkState (A : Type) where
  seen : List Bool
  vals : List Q2
  aux : A

/-- One visit of a texture-coordinate index by a face: skipped when the seen
bit is set, otherwise the coordinate is rewritten once, the auxiliary state
is updated and the bit is set.  The pair t is the imageId of the face and the
coordinate index. -/
def markStep (f : Nat → Q2 → Q2) (g : Nat → Q2 → A → A)
    (st : MarkState A) (t : Nat × Nat) : MarkState A :=
  if st.seen.getD t.2 false then st
  else
    let v := f t.1 (st.vals.getD t.2 (0, 0))
    ⟨st.seen.set t.2 true, st.vals.set t.2 v, g t.1 v st.aux⟩

/-- A whole visited-once pass over a touch list. -/
def markPass (f : Nat → Q2 → Q2) (g : Nat → Q2 → A → A)
    (st : MarkState A) (ts : List (Nat × Nat)) : MarkState A :=
  ts.foldl (markStep f g) st

/-- The visit order of both face loops of rebuild: per face, its imageId
paired with each of its three texture-coordinate indices. -/
def touchList (faces : List Face) : List (Nat × Nat) :=
  faces.flatMap (fun fc => [(fc.imageId, fc.ta), (fc.imageId, fc.tb), (fc.imageId, fc.tc)])

/-- The coordinate rewrite of the expand lambda of rebuild: scale by the size
of the region selected by the imageId. -/
def expandF (rs : List ExtentsQ) : Nat → Q2 → Q2 :=
  fun img tc => remapTc (sizeOfE (rs.getD img ⟨(0, 0), (0, 0)⟩)) tc

/-- The footprint update of the expand lambda of rebuild: the region's UV
patch is expanded to cover the scaled coordinate (imgproc::tx::UvPatch of the
external imgproc collaborator, modelled from the spec as an extents). -/
def expandG : Nat → Q2 → List Extents2 → List Extents2 :=
  fun img v aux =>
    aux.set img (update (aux.getD img invalidExtents) (XQ.ofQ v.1, XQ.ofQ v.2))

/-- The expand pass of rebuild: UV patches per region are grown over every
texture coordinate used by a face of that region, each coordinate index
visited at most once and scaled in place on first visit. -/
def expandStage (sm : SubMesh) (txSize : Int × Int) : MarkState (List Extents2) :=
  markPass (expandF (regionsPx sm txSize)) expandG
    ⟨List.replicate sm.mesh.tCoords.length false, sm.mesh.tCoords,
     List.replicate sm.regions.length invalidExtents⟩
    (touchList sm.mesh.faces)

/-- The coordinate rewrite of the map lambda of rebuild: the placement
transform of the patch selected by the imageId (a parameter, the external
packing collaborator assigns it), then normalization by the atlas size. -/
def mapF (patchMaps : List (Q2 → Q2)) (atlasSize : Q2) : Nat → Q2 → Q2 :=
  fun img tc =>
    let m := (patchMaps.getD img id) tc
    (m.1 / atlasSize.1, m.2 / atlasSize.2)

/-- The map pass of rebuild over a fresh seen bitmap: each coordinate index
is visited at most once and rewritten through its patch transform. -/
def mapStage (faces : List Face) (tCoords : List Q2)
    (patchMaps : List (Q2 → Q2)) (atlasSize : Q2) : MarkState Unit :=
  markPass (mapF patchMaps atlasSize) (fun _ _ a => a)
    ⟨List.replicate tCoords.length false, tCoords, ()⟩ (touchList faces)

/-- Reset of the image identifier performed for every face in the map loop of
rebuild. -/
def resetImageId (fc : Face) : Face :=
  ⟨fc.va, fc.vb, fc.vc, fc.ta, fc.tb, fc.tc, 0⟩

/-- rebuild of slpk2obj.cpp, restricted to its effect on the submesh: the
expand pass scales the texture coordinates into region-local pixel space and
grows the UV patches, the map pass rewrites each coordinate once through its
patch placement and normalizes it, every face's imageId is reset to zero, and
the Region list is carried over unchanged.  The patch placements and the
atlas size are parameters, produced by the external packing collaborator. -/
def rebuild (sm : SubMesh) (txSize : Int × Int)
    (patchMaps : List (Q2 → Q2)) (atlasSize : Q2) : SubMesh :=
  let ex := expandStage sm txSize
  let mp := mapStage sm.mesh.faces ex.vals patchMaps atlasSize
  ⟨⟨sm.mesh.vertices, mp.vals, sm.mesh.faces.map resetImageId⟩, sm.regions⟩

/-- One indexed array access performed by rebuild. -/
inductive Acc where
  | reg (i : Nat)
  | uv (i : Nat)
  | pat (i : Nat)
  | seenA (i : Nat)
  | tcA (i : Nat)
deriving DecidableEq

/-- The accesses one face causes in the expand loop of rebuild. -/
def faceAccessesExpand (fc : Face) : List Acc :=
  [Acc.reg fc.imageId, Acc.uv fc.imageId,
   Acc.seenA fc.ta, Acc.tcA fc.ta,
   Acc.seenA fc.tb, Acc.tcA fc.tb,
   Acc.seenA fc.tc, Acc.tcA fc.tc]

/-- The accesses one face causes in the map loop of rebuild. -/
def faceAccessesMap (fc : Face) : List Acc :=
  [Acc.pat fc.imageId,
   Acc.seenA fc.ta, Acc.tcA fc.ta,
   Acc.seenA fc.tb, Acc.tcA fc.tb,
   Acc.seenA fc.tc, Acc.tcA fc.tc]

/-- Every indexed access rebuild performs over its two face loops. -/
def rebuildAccesses (sm : SubMesh) : List Acc :=
  sm.mesh.faces.flatMap faceAccessesExpand ++ sm.mesh.faces.flatMap faceAccessesMap

/-- Whether an access stays inside the container it indexes: the remapped
region list, the UV patch vector, the patch vector, the seen bitmap and the
texture-coordinate array. -/
def accInBounds (sm : SubMesh) (txSize : Int × Int)
    (patchMaps : List (Q2 → Q2)) : Acc → Bool
  | Acc.reg i => decide (i < (regionsPx sm txSize).length)
  | Acc.uv i => decide (i < (List.replicate sm.regions.length invalidExtents).length)
  | Acc.pat i => decide (i < patchMaps.length)
  | Acc.seenA i => decide (i < (List.replicate sm.mesh.tCoords.length false).length)
  | Acc.tcA i => decide (i < sm.mesh.tCoords.length)

/-- An integer rectangle of the pixel-copy loop (point and size, from the
external imgproc collaborator's Rect, modelled from the spec). -/
structure RectZ where
  point : Int × Int
  size : Int × Int
deriving DecidableEq

/-- The source row the copy loop reads for destination row j: the uv rect
origin plus the truncating modulo (the C++ percent operator) of j minus the
placement offset, taken by the uv rect height. -/
def srcY (uvRect dstRect : RectZ) (j : Int) : Int :=
  uvRect.point.2 + Int.tmod (j - (dstRect.point.2 - uvRect.point.2)) uvRect.size.2

/-- The source column the copy loop reads for destination column i. -/
def srcX (uvRect dstRect : RectZ) (i : Int) : Int :=
  uvRect.point.1 + Int.tmod (i - (dstRect.point.1 - uvRect.point.1)) uvRect.size.1

/-- One row of the pixel-copy loop of rebuild, j fixed: the guards and the
wraparound source addressing, emitting the destination and source coordinate
of every pixel actually copied (x before y). -/
def rowOps (atlasSize txSize : Int × Int) (uvRect dstRect : RectZ)
    (j : Int) : List ((Int × Int) × (Int × Int)) :=
  if j < 0 ∨ atlasSize.2 ≤ j then []
  else if srcY uvRect dstRect j < 0 ∨ txSize.2 ≤ srcY uvRect dstRect j then []
  else
    (List.range dstRect.size.1.toNat).filterMap (fun (di : Nat) =>
      if dstRect.point.1 + (di : Int) < 0 ∨ atlasSize.1 ≤ dstRect.point.1 + (di : Int) then
        none
      else if srcX uvRect dstRect (dstRect.point.1 + (di : Int)) < 0
          ∨ txSize.1 ≤ srcX uvRect dstRect (dstRect.point.1 + (di : Int)) then
        none
      else
        some ((dstRect.point.1 + (di : Int), j),
          (srcX uvRect dstRect (dstRect.point.1 + (di : Int)), srcY uvRect dstRect j)))

/-- The pixel-copy loop of rebuild for one placed patch: all pixels copied
from the source image into the atlas, as destination and source coordinate
pairs. -/
def copyPatchOps (atlasSize txSize : Int × Int) (uvRect dstRect : RectZ) :
    List ((Int × Int) × (Int × Int)) :=
  (List.range dstRect.size.2.toNat).flatMap (fun (dj : Nat) =>
    rowOps atlasSize txSize uvRect dstRect (dstRect.point.2 + (dj : Int)))

/-- The value an atlas pixel holds after the copy loop of one patch ran over
a background-initialized buffer. -/
def applyOps (bg : Int) (tx : Int × Int → Int)
    (ops : List ((Int × Int) × (Int × Int))) (d : Int × Int) : Int :=
  match ops.find? (fun op => op.1 == d) with
  | some op => tx op.2
  | none => bg

/-- Concrete sample: a submesh whose single texture coordinate is shared by
two faces that carry different image identifiers, against two regions of
different size. -/
def smShared : SubMesh :=
  ⟨⟨[], [(1, 1)], [⟨0, 0, 0, 0, 0, 0, 0⟩, ⟨0, 0, 0, 0, 0, 0, 1⟩]⟩,
   [⟨(0, 0), (2, 2)⟩, ⟨(0, 0), (4, 4)⟩]⟩

/-- Concrete sample: a two-level tree with geometry on both levels. -/
def treeSample : List Node :=
  [⟨2, true, [⟨⟨[(0, 0, 0)], [], []⟩, []⟩]⟩,
   ⟨3, true, [⟨⟨[(5, 5, 0)], [], []⟩, []⟩]⟩]

/-- Concrete sample: a node without geometry. -/
def nodeNoGeom : Node := ⟨0, false, []⟩

/-- Concrete sample: a geometry node on a finer level than treeSample's
coarsest geometry level. -/
def nodeFiner : Node := ⟨4, true, [⟨⟨[(9, 9, 9)], [], []⟩, []⟩]⟩

/-- Concrete sample: a point list and a permutation of it. -/
def ptsA : List (XQ × XQ) := [(XQ.ofQ 0, XQ.ofQ 0), (XQ.ofQ 1, XQ.ofQ 2)]

def ptsB : List (XQ × XQ) := [(XQ.ofQ 1, XQ.ofQ 2), (XQ.ofQ 0, XQ.ofQ 0)]

/-- Concrete sample extents values with ordered corners. -/
def extA : Extents2 := ⟨(XQ.ofQ 0, XQ.ofQ 0), (XQ.ofQ 1, XQ.ofQ 1)⟩

def extB : Extents2 := ⟨(XQ.ofQ 2, XQ.ofQ 0), (XQ.ofQ 3, XQ.ofQ 5)⟩

def extC : Extents2 := ⟨(XQ.ofQ 1, XQ.ofQ 1), (XQ.ofQ 2, XQ.ofQ 2)⟩

/-- Concrete sample partition into non-empty point lists. -/
def partsC : List (List (XQ × XQ)) :=
  [[(XQ.ofQ 0, XQ.ofQ 0)], [(XQ.ofQ 1, XQ.ofQ 1)]]

theorem getD_set_self {α : Type} (l : List α) (k : Nat) (x d : α) (h : k < l.length) :
    (l.set k x).getD k d = x := by
  induction l generalizing k with
  | nil => simp at h
  | cons a l ih =>
    cases k with
    | zero => rfl
    | succ k => exact ih k (Nat.lt_of_succ_lt_succ h)

theorem getD_set_ne {α : Type} (l : List α) (j k : Nat) (x d : α) (h : j ≠ k) :
    (l.set j x).getD k d = l.getD k d := by
  induction l generalizing j k with
  | nil => rfl
  | cons a l ih =>
    cases j with
    | zero =>
      cases k with
      | zero => exact absurd rfl h
      | succ k => rfl
    | succ j =>
      cases k with
      | zero => rfl
      | succ k => exact ih j k (fun hh => h (congrArg Nat.succ hh))

theorem getD_replicate {α : Type} (n k : Nat) (x : α) :
    (List.replicate n x).getD k x = x := by
  induction n generalizing k with
  | zero => cases k <;> rfl
  | succ n ih =>
    cases k with
    | zero => rfl
    | succ k => exact ih k

theorem getD_map {α β : Type} (f : α → β) (l : List α) (i : Nat) (d : α) (e : β)
    (h : i < l.length) : (l.map f).getD i e = f (l.getD i d) := by
  induction l generalizing i with
  | nil => simp at h
  | cons a l ih =>
    cases i with
    | zero => rfl
    | succ i => exact ih i (Nat.lt_of_succ_lt_succ h)

theorem XQ.le_posInf (x : XQ) : x ≤ XQ.posInf := by
  induction x using WithBot.recBotCoe with
  | bot => exact bot_le
  | coe a => exact WithBot.coe_le_coe.mpr le_top

theorem XQ.negInf_le (x : XQ) : XQ.negInf ≤ x := bot_le

theorem foldl_min_le_init (xs : List XQ) (a : XQ) : xs.foldl min a ≤ a := by
  induction xs generalizing a with
  | nil => exact le_refl a
  | cons x xs ih => exact le_trans (ih (min a x)) (min_le_left a x)

theorem le_foldl_max_init (xs : List XQ) (a : XQ) : a ≤ xs.foldl max a := by
  induction xs generalizing a with
  | nil => exact le_refl a
  | cons x xs ih => exact le_trans (le_max_left a x) (ih (max a x))

theorem foldl_min_le_mem (xs : List XQ) (a x : XQ) (h : x ∈ xs) : xs.foldl min a ≤ x := by
  induction xs generalizing a with
  | nil => cases h
  | cons y ys ih =>
    rcases List.mem_cons.mp h with hxy | hy
    · subst hxy
      exact le_trans (foldl_min_le_init ys (min a x)) (min_le_right a x)
    · exact ih (min a y) hy

theorem mem_le_foldl_max (xs : List XQ) (a x : XQ) (h : x ∈ xs) : x ≤ xs.foldl max a := by
  induction xs generalizing a with
  | nil => cases h
  | cons y ys ih =>
    rcases List.mem_cons.mp h with hxy | hy
    · subst hxy
      exact le_trans (le_max_right a x) (le_foldl_max_init ys (max a x))
    · exact ih (max a y) hy

theorem foldl_min_factor (xs : List XQ) (a : XQ) :
    xs.foldl min a = min a (xs.foldl min XQ.posInf) := by
  induction xs generalizing a with
  | nil => exact (min_eq_left (XQ.le_posInf a)).symm
  | cons x xs ih =>
    show xs.foldl min (min a x) = min a (xs.foldl min (min XQ.posInf x))
    rw [ih (min a x), ih (min XQ.posInf x), min_eq_right (XQ.le_posInf x), min_assoc]

theorem foldl_max_factor (xs : List XQ) (a : XQ) :
    xs.foldl max a = max a (xs.foldl max XQ.negInf) := by
  induction xs generalizing a with
  | nil => exact (max_eq_left (XQ.negInf_le a)).symm
  | cons x xs ih =>
    show xs.foldl max (max a x) = max a (xs.foldl max (max XQ.negInf x))
    rw [ih (max a x), ih (max XQ.negInf x), max_eq_right (XQ.negInf_le x), max_assoc]

theorem mins_le_maxs (xs : List XQ) (h : xs ≠ []) :
    xs.foldl min XQ.posInf ≤ xs.foldl max XQ.negInf := by
  cases xs with
  | nil => exact absurd rfl h
  | cons x xs =>
    exact le_trans (foldl_min_le_mem _ _ x (List.mem_cons_self x xs))
      (mem_le_foldl_max _ _ x (List.mem_cons_self x xs))

theorem foldl_update_ll1 (ps : List (XQ × XQ)) (g : Extents2) :
    (ps.foldl update g).ll.1 = (ps.map Prod.fst).foldl min g.ll.1 := by
  induction ps generalizing g with
  | nil => rfl
  | cons p ps ih => exact ih (update g p)

theorem foldl_update_ll2 (ps : List (XQ × XQ)) (g : Extents2) :
    (ps.foldl update g).ll.2 = (ps.map Prod.snd).foldl min g.ll.2 := by
  induction ps generalizing g with
  | nil => rfl
  | cons p ps ih => exact ih (update g p)

theorem foldl_update_ur1 (ps : List (XQ × XQ)) (g : Extents2) :
    (ps.foldl update g).ur.1 = (ps.map Prod.fst).foldl max g.ur.1 := by
  induction ps generalizing g with
  | nil => rfl
  | cons p ps ih => exact ih (update g p)

theorem foldl_update_ur2 (ps : List (XQ × XQ)) (g : Extents2) :
    (ps.foldl update g).ur.2 = (ps.map Prod.snd).foldl max g.ur.2 := by
  induction ps generalizing g with
  | nil => rfl
  | cons p ps ih => exact ih (update g p)

theorem mergeCorners_extentsOfPoints (g : Extents2) (ps : List (XQ × XQ)) (h : ps ≠ []) :
    mergeCorners g (extentsOfPoints ps) = ps.foldl update g := by
  have hx : ps.map Prod.fst ≠ [] := fun hm => h (List.map_eq_nil_iff.mp hm)
  have hy : ps.map Prod.snd ≠ [] := fun hm => h (List.map_eq_nil_iff.mp hm)
  have hmx := mins_le_maxs _ hx
  have hmy := mins_le_maxs _ hy
  have ell1 : (extentsOfPoints ps).ll.1 = (ps.map Prod.fst).foldl min XQ.posInf :=
    foldl_update_ll1 ps invalidExtents
  have ell2 : (extentsOfPoints ps).ll.2 = (ps.map Prod.snd).foldl min XQ.posInf :=
    foldl_update_ll2 ps invalidExtents
  have eur1 : (extentsOfPoints ps).ur.1 = (ps.map Prod.fst).foldl max XQ.negInf :=
    foldl_update_ur1 ps invalidExtents
  have eur2 : (extentsOfPoints ps).ur.2 = (ps.map Prod.snd).foldl max XQ.negInf :=
    foldl_update_ur2 ps invalidExtents
  have hrll1 : (ps.foldl update g).ll.1
      = min g.ll.1 ((ps.map Prod.fst).foldl min XQ.posInf) := by
    rw [foldl_update_ll1]
    exact foldl_min_factor _ _
  have hrll2 : (ps.foldl update g).ll.2
      = min g.ll.2 ((ps.map Prod.snd).foldl min XQ.posInf) := by
    rw [foldl_update_ll2]
    exact foldl_min_factor _ _
  have hrur1 : (ps.foldl update g).ur.1
      = max g.ur.1 ((ps.map Prod.fst).foldl max XQ.negInf) := by
    rw [foldl_update_ur1]
    exact foldl_max_factor _ _
  have hrur2 : (ps.foldl update g).ur.2
      = max g.ur.2 ((ps.map Prod.snd).foldl max XQ.negInf) := by
    rw [foldl_update_ur2]
    exact foldl_max_factor _ _
  ext
  · show min (min g.ll.1 (extentsOfPoints ps).ll.1) (extentsOfPoints ps).ur.1
      = (ps.foldl update g).ll.1
    rw [ell1, eur1, hrll1]
    exact min_eq_left (le_trans (min_le_right _ _) hmx)
  · show min (min g.ll.2 (extentsOfPoints ps).ll.2) (extentsOfPoints ps).ur.2
      = (ps.foldl update g).ll.2
    rw [ell2, eur2, hrll2]
    exact min_eq_left (le_trans (min_le_right _ _) hmy)
  · show max (max g.ur.1 (extentsOfPoints ps).ll.1) (extentsOfPoints ps).ur.1
      = (ps.foldl update g).ur.1
    rw [ell1, eur1, hrur1, max_assoc, max_eq_right hmx]
  · show max (max g.ur.2 (extentsOfPoints ps).ll.2) (extentsOfPoints ps).ur.2
      = (ps.foldl update g).ur.2
    rw [ell2, eur2, hrur2, max_assoc, max_eq_right hmy]

theorem foldl_mergeCorners (parts : List (List (XQ × XQ))) (g : Extents2)
    (h : ∀ p ∈ parts, p ≠ []) :
    parts.foldl (fun acc p => mergeCorners acc (extentsOfPoints p)) g
      = parts.flatten.foldl update g := by
  induction parts generalizing g with
  | nil => rfl
  | cons p ps ih =>
    have hp : p ≠ [] := h p (List.mem_cons_self p ps)
    show ps.foldl _ (mergeCorners g (extentsOfPoints p)) = _
    rw [mergeCorners_extentsOfPoints g p hp,
      ih (p.foldl update g) (fun q hq => h q (List.mem_cons_of_mem p hq)),
      List.flatten_cons, List.foldl_append]

theorem localExtents_eq (conv : Q3 → Q3) (n : Node) :
    localExtents conv n
      = extentsOfPoints ((nodeVertices n).map (fun v => proj2 (conv v))) := by
  unfold localExtents extentsOfPoints
  rw [List.foldl_map]

theorem topLevel_append_nogeom (tree : List Node) (n' : Node) (h : n'.hasGeometry = false) :
    topLevel (tree ++ [n']) = topLevel tree := by
  have hstep : topLevel (tree ++ [n'])
      = (if n'.hasGeometry then min (topLevel tree) n'.level else topLevel tree) := by
    unfold topLevel
    rw [List.foldl_append]
    rfl
  rw [hstep, h]
  rfl

theorem topLevel_append_ge (tree : List Node) (n' : Node) (h : topLevel tree < n'.level) :
    topLevel (tree ++ [n']) = topLevel tree := by
  have hstep : topLevel (tree ++ [n'])
      = (if n'.hasGeometry then min (topLevel tree) n'.level else topLevel tree) := by
    unfold topLevel
    rw [List.foldl_append]
    rfl
  rw [hstep]
  by_cases hg : n'.hasGeometry
  · rw [if_pos hg]
    exact min_eq_left (le_of_lt h)
  · rw [if_neg hg]

theorem selectedNodes_append_nogeom (tree : List Node) (n' : Node)
    (h : n'.hasGeometry = false) :
    selectedNodes (tree ++ [n']) = selectedNodes tree := by
  unfold selectedNodes
  rw [topLevel_append_nogeom tree n' h, List.filter_append]
  simp [List.filter_cons, h]

theorem selectedNodes_append_ge (tree : List Node) (n' : Node)
    (h : topLevel tree < n'.level) :
    selectedNodes (tree ++ [n']) = selectedNodes tree := by
  unfold selectedNodes
  rw [topLevel_append_ge tree n' h, List.filter_append]
  have hne : n'.level ≠ topLevel tree := ne_of_gt h
  simp [List.filter_cons, hne]

theorem measureMesh_append_nogeom (conv : Q3 → Q3) (tree : List Node) (n' : Node)
    (h : n'.hasGeometry = false) :
    measureMesh conv (tree ++ [n']) = measureMesh conv tree := by
  unfold measureMesh
  rw [selectedNodes_append_nogeom tree n' h]

theorem measureMesh_append_ge (conv : Q3 → Q3) (tree : List Node) (n' : Node)
    (h : topLevel tree < n'.level) :
    measureMesh conv (tree ++ [n']) = measureMesh conv tree := by
  unfold measureMesh
  rw [selectedNodes_append_ge tree n' h]

/-- Claim C2: measureMesh computes the global extents from exactly the
geometry-bearing nodes of the minimum geometry level: the result is the
extents of the converted, x-y-projected vertices of the selected nodes, and
appending a non-geometry node of any level, or a geometry node of a finer
level, changes neither the selected level nor the result. -/
theorem measureMesh_level_selection (conv : Q3 → Q3) (tree : List Node) (ng nf : Node)
    (hv : ∀ n ∈ selectedNodes tree, nodeVertices n ≠ [])
    (hng : ng.hasGeometry = false)
    (hnf : topLevel tree < nf.level) :
    measureMesh conv tree
      = extentsOfPoints ((selectedNodes tree).flatMap
          (fun n => (nodeVertices n).map (fun v => proj2 (conv v))))
    ∧ topLevel (tree ++ [ng]) = topLevel tree
    ∧ measureMesh conv (tree ++ [ng]) = measureMesh conv tree
    ∧ topLevel (tree ++ [nf]) = topLevel tree
    ∧ measureMesh conv (tree ++ [nf]) = measureMesh conv tree := by
  refine ⟨?_, topLevel_append_nogeom tree ng hng, measureMesh_append_nogeom conv tree ng hng,
    topLevel_append_ge tree nf hnf, measureMesh_append_ge conv tree nf hnf⟩
  unfold measureMesh
  simp only [localExtents_eq]
  rw [← List.foldl_map (fun n : Node => (nodeVertices n).map (fun v => proj2 (conv v)))
    (fun acc p => mergeCorners acc (extentsOfPoints p))]
  rw [foldl_mergeCorners _ invalidExtents ?nonempty]
  case nonempty =>
    intro p hp
    rcases List.mem_map.mp hp with ⟨n, hn, hpn⟩
    subst hpn
    exact fun hm => hv n hn (List.map_eq_nil_iff.mp hm)
  rw [List.flatMap_def]
  rfl

/-- Claim C2 witness: the level-selection theorem applied to the concrete
two-level sample tree with the identity converter. -/
theorem measureMesh_level_selection_witness :
    ((∀ n ∈ selectedNodes treeSample, nodeVertices n ≠ [])
      ∧ nodeNoGeom.hasGeometry = false
      ∧ topLevel treeSample < nodeFiner.level)
    ∧ (measureMesh (fun v => v) treeSample
        = extentsOfPoints ((selectedNodes treeSample).flatMap
            (fun n => (nodeVertices n).map (fun v => proj2 v)))
      ∧ topLevel (treeSample ++ [nodeNoGeom]) = topLevel treeSample
      ∧ measureMesh (fun v => v) (treeSample ++ [nodeNoGeom])
          = measureMesh (fun v => v) treeSample
      ∧ topLevel (treeSample ++ [nodeFiner]) = topLevel treeSample
      ∧ measureMesh (fun v => v) (treeSample ++ [nodeFiner])
          = measureMesh (fun v => v) treeSample) :=
  ⟨⟨by decide, by decide, by decide⟩,
   measureMesh_level_selection (fun v => v) treeSample nodeNoGeom nodeFiner
     (by decide) (by decide) (by decide)⟩

theorem XQ.max_right_comm (a b c : XQ) : max (max a b) c = max (max a c) b := by
  rw [max_assoc, max_assoc, max_comm b c]

theorem update_right_comm (g : Extents2) (p q : XQ × XQ) :
    update (update g p) q = update (update g q) p := by
  unfold update
  ext
  · exact min_right_comm g.ll.1 p.1 q.1
  · exact min_right_comm g.ll.2 p.2 q.2
  · exact XQ.max_right_comm g.ur.1 p.1 q.1
  · exact XQ.max_right_comm g.ur.2 p.2 q.2

instance updateRightCommutative : RightCommutative update := ⟨update_right_comm⟩

theorem mergeCorners_canonical (a b : Extents2) (hb : validE b) :
    mergeCorners a b = ⟨(min a.ll.1 b.ll.1, min a.ll.2 b.ll.2),
      (max a.ur.1 b.ur.1, max a.ur.2 b.ur.2)⟩ := by
  obtain ⟨hb1, hb2⟩ := hb
  unfold mergeCorners update
  ext
  · exact min_eq_left (le_trans (min_le_right _ _) hb1)
  · exact min_eq_left (le_trans (min_le_right _ _) hb2)
  · show max (max a.ur.1 b.ll.1) b.ur.1 = max a.ur.1 b.ur.1
    rw [max_assoc, max_eq_right hb1]
  · show max (max a.ur.2 b.ll.2) b.ur.2 = max a.ur.2 b.ur.2
    rw [max_assoc, max_eq_right hb2]

theorem validE_mergeCorners (a b : Extents2) (ha : validE a) (hb : validE b) :
    validE (mergeCorners a b) := by
  rw [mergeCorners_canonical a b hb]
  exact ⟨le_trans (min_le_left _ _) (le_trans ha.1 (le_max_left _ _)),
    le_trans (min_le_left _ _) (le_trans ha.2 (le_max_left _ _))⟩

/-- Claim C7: extents accumulation is commutative and associative: folding a
point list in any order gives the same box, the corner merge of valid
extents values commutes and associates, and merging any partition of the
points into non-empty node-local extents through the shared-accumulator
corner merge equals the extents of all points together. -/
theorem extents_merge_algebra (p₁ p₂ : List (XQ × XQ)) (a b c : Extents2)
    (parts : List (List (XQ × XQ)))
    (hperm : p₁.Perm p₂) (ha : validE a) (hb : validE b) (hc : validE c)
    (hparts : ∀ p ∈ parts, p ≠ []) :
    extentsOfPoints p₁ = extentsOfPoints p₂
    ∧ mergeCorners a b = mergeCorners b a
    ∧ mergeCorners (mergeCorners a b) c = mergeCorners a (mergeCorners b c)
    ∧ parts.foldl (fun acc p => mergeCorners acc (extentsOfPoints p)) invalidExtents
        = extentsOfPoints parts.flatten := by
  refine ⟨hperm.foldl_eq invalidExtents, ?_, ?_, foldl_mergeCorners parts invalidExtents hparts⟩
  · rw [mergeCorners_canonical a b hb, mergeCorners_canonical b a ha]
    ext
    · exact min_comm _ _
    · exact min_comm _ _
    · exact max_comm _ _
    · exact max_comm _ _
  · rw [mergeCorners_canonical (mergeCorners a b) c hc,
      mergeCorners_canonical a (mergeCorners b c) (validE_mergeCorners b c hb hc),
      mergeCorners_canonical a b hb, mergeCorners_canonical b c hc]
    ext
    · exact min_assoc _ _ _
    · exact min_assoc _ _ _
    · exact max_assoc _ _ _
    · exact max_assoc _ _ _

/-- Claim C7 witness: the merge-algebra theorem applied to concrete point
lists, extents values and a concrete partition. -/
theorem extents_merge_algebra_witness :
    (ptsA.Perm ptsB ∧ validE extA ∧ validE extB ∧ validE extC
      ∧ (∀ p ∈ partsC, p ≠ []))
    ∧ (extentsOfPoints ptsA = extentsOfPoints ptsB
      ∧ mergeCorners extA extB = mergeCorners extB extA
      ∧ mergeCorners (mergeCorners extA extB) extC
          = mergeCorners extA (mergeCorners extB extC)
      ∧ partsC.foldl (fun acc p => mergeCorners acc (extentsOfPoints p)) invalidExtents
          = extentsOfPoints partsC.flatten) :=
  ⟨⟨by decide, ⟨by decide, by decide⟩, ⟨by decide, by decide⟩, ⟨by decide, by decide⟩,
     by decide⟩,
   extents_merge_algebra ptsA ptsB extA extB extC partsC
     (by decide) ⟨by decide, by decide⟩ ⟨by decide, by decide⟩ ⟨by decide, by decide⟩
     (by decide)⟩

/-- Claim C3: the localization stage of write maps every vertex v of every
submesh of every node to converter v minus the center of the measured global
extents, and leaves the texture coordinates unchanged. -/
theorem write_localizes (conv : Q3 → Q3) (tree : List Node) (a i : Nat)
    (ha : a < tree.length) (hi : i < (tree.getD a defNode).geometry.length) :
    (((writeAll conv tree).getD a []).getD i emptySubMesh).mesh.vertices
      = ((tree.getD a defNode).geometry.getD i emptySubMesh).mesh.vertices.map
          (fun v => subCenter (conv v) (centerOf (measureMesh conv tree)))
    ∧ (((writeAll conv tree).getD a []).getD i emptySubMesh).mesh.tCoords
      = ((tree.getD a defNode).geometry.getD i emptySubMesh).mesh.tCoords := by
  have h1 : (writeAll conv tree).getD a [] = writeNode conv tree (tree.getD a defNode) :=
    getD_map _ tree a defNode [] ha
  have h2 : (writeNode conv tree (tree.getD a defNode)).getD i emptySubMesh
      = localizeSubMesh conv (centerOf (measureMesh conv tree))
          ((tree.getD a defNode).geometry.getD i emptySubMesh) :=
    getD_map _ _ i emptySubMesh emptySubMesh hi
  rw [h1, h2]
  exact ⟨rfl, rfl⟩

/-- Claim C3 witness: the localization theorem applied to the concrete sample
tree, the identity converter and the first submesh of the first node. -/
theorem write_localizes_witness :
    (0 < treeSample.length ∧ 0 < (treeSample.getD 0 defNode).geometry.length)
    ∧ ((((writeAll (fun v => v) treeSample).getD 0 []).getD 0 emptySubMesh).mesh.vertices
        = ((treeSample.getD 0 defNode).geometry.getD 0 emptySubMesh).mesh.vertices.map
            (fun v => subCenter v (centerOf (measureMesh (fun v => v) treeSample)))
      ∧ (((writeAll (fun v => v) treeSample).getD 0 []).getD 0 emptySubMesh).mesh.tCoords
        = ((treeSample.getD 0 defNode).geometry.getD 0 emptySubMesh).mesh.tCoords) :=
  ⟨⟨by decide, by decide⟩,
   write_localizes (fun v => v) treeSample 0 0 (by decide) (by decide)⟩

/-- Claim C8: the Region-to-pixel remap computes size times coord over 65535
per axis, and the extreme Region from 0,0 to 65535,65535 maps to the exact
pixel extents from 0,0 to W,H. -/
theorem remapRegion_extremes (W H : Int) :
    (∀ s c : Int, remap s c = (s : ℚ) * ((c : ℚ) / 65535))
    ∧ remapRegion (W, H) ⟨(0, 0), (65535, 65535)⟩ = ⟨(0, 0), ((W : ℚ), (H : ℚ))⟩ := by
  refine ⟨fun s c => rfl, ?_⟩
  unfold remapRegion remap
  norm_num

theorem markStep_seen {A : Type} (f : Nat → Q2 → Q2) (g : Nat → Q2 → A → A)
    (st : MarkState A) (t : Nat × Nat) (h : st.seen.getD t.2 false = true) :
    markStep f g st t = st := by
  unfold markStep
  rw [h]
  rfl

theorem markStep_not_seen {A : Type} (f : Nat → Q2 → Q2) (g : Nat → Q2 → A → A)
    (st : MarkState A) (t : Nat × Nat) (h : st.seen.getD t.2 false = false) :
    markStep f g st t = ⟨st.seen.set t.2 true,
      st.vals.set t.2 (f t.1 (st.vals.getD t.2 (0, 0))),
      g t.1 (f t.1 (st.vals.getD t.2 (0, 0))) st.aux⟩ := by
  unfold markStep
  rw [h]
  rfl

theorem markPass_stable {A : Type} (f : Nat → Q2 → Q2) (g : Nat → Q2 → A → A)
    (ts : List (Nat × Nat)) :
    ∀ (st : MarkState A) (k : Nat), st.seen.getD k false = true →
      (markPass f g st ts).vals.getD k (0, 0) = st.vals.getD k (0, 0)
      ∧ (markPass f g st ts).seen.getD k false = true := by
  induction ts with
  | nil => exact fun st k h => ⟨rfl, h⟩
  | cons t ts ih =>
    intro st k h
    show (markPass f g (markStep f g st t) ts).vals.getD k (0, 0) = _
      ∧ (markPass f g (markStep f g st t) ts).seen.getD k false = true
    cases hseen : st.seen.getD t.2 false with
    | true =>
      rw [markStep_seen f g st t hseen]
      exact ih st k h
    | false =>
      have hne : t.2 ≠ k := fun he => by
        rw [he, h] at hseen
        exact Bool.true_eq_false.mp hseen
      rw [markStep_not_seen f g st t hseen]
      have h1 : (st.seen.set t.2 true).getD k false = true := by
        rw [getD_set_ne _ _ _ _ _ hne]
        exact h
      obtain ⟨hv, hs⟩ := ih ⟨st.seen.set t.2 true,
        st.vals.set t.2 (f t.1 (st.vals.getD t.2 (0, 0))),
        g t.1 (f t.1 (st.vals.getD t.2 (0, 0))) st.aux⟩ k h1
      refine ⟨?_, hs⟩
      rw [hv]
      exact getD_set_ne _ _ _ _ _ hne

theorem markPass_vals_getD {A : Type} (f : Nat → Q2 → Q2) (g : Nat → Q2 → A → A)
    (ts : List (Nat × Nat)) :
    ∀ (st : MarkState A) (k : Nat), k < st.vals.length → k < st.seen.length →
      st.seen.getD k false = false →
      (markPass f g st ts).vals.getD k (0, 0)
        = match ts.find? (fun t => t.2 == k) with
          | some t => f t.1 (st.vals.getD k (0, 0))
          | none => st.vals.getD k (0, 0) := by
  induction ts with
  | nil => intro st k _ _ _; rfl
  | cons t ts ih =>
    intro st k hkv hks h0
    by_cases hk : t.2 = k
    · rw [List.find?_cons_of_pos ts (by simpa using hk)]
      have hseen : st.seen.getD t.2 false = false := by rw [hk]; exact h0
      show (markPass f g (markStep f g st t) ts).vals.getD k (0, 0) = _
      rw [markStep_not_seen f g st t hseen]
      have hs' : ((st.seen.set t.2 true : List Bool)).getD k false = true := by
        rw [hk]
        exact getD_set_self _ _ _ _ hks
      obtain ⟨hv, _⟩ := markPass_stable f g ts ⟨st.seen.set t.2 true,
        st.vals.set t.2 (f t.1 (st.vals.getD t.2 (0, 0))),
        g t.1 (f t.1 (st.vals.getD t.2 (0, 0))) st.aux⟩ k hs'
      rw [hv]
      show (st.vals.set t.2 (f t.1 (st.vals.getD t.2 (0, 0)))).getD k (0, 0)
        = f t.1 (st.vals.getD k (0, 0))
      rw [hk]
      exact getD_set_self _ _ _ _ hkv
    · rw [List.find?_cons_of_neg ts (by simpa using hk)]
      show (markPass f g (markStep f g st t) ts).vals.getD k (0, 0) = _
      cases hseen : st.seen.getD t.2 false with
      | true =>
        rw [markStep_seen f g st t hseen]
        exact ih st k hkv hks h0
      | false =>
        rw [markStep_not_seen f g st t hseen]
        have hkv' : k < (st.vals.set t.2 (f t.1 (st.vals.getD t.2 (0, 0)))).length := by
          rw [List.length_set]
          exact hkv
        have hks' : k < ((st.seen.set t.2 true : List Bool)).length := by
          rw [List.length_set]
          exact hks
        have h0' : ((st.seen.set t.2 true : List Bool)).getD k false = false := by
          rw [getD_set_ne _ _ _ _ _ hk]
          exact h0
        rw [ih ⟨st.seen.set t.2 true,
          st.vals.set t.2 (f t.1 (st.vals.getD t.2 (0, 0))),
          g t.1 (f t.1 (st.vals.getD t.2 (0, 0))) st.aux⟩ k hkv' hks' h0']
        rw [getD_set_ne st.vals t.2 k (f t.1 (st.vals.getD t.2 (0, 0))) (0, 0) hk]

/-- Claim C9: in the texture-coordinate remap pass each index is rewritten
exactly once even when several faces reference it: the final coordinate is
the patch placement transform of the first touching face's patch applied a
single time, then normalized by the atlas size; an untouched index keeps its
value.  A second application never happens. -/
theorem mapStage_maps_once (faces : List Face) (tCoords : List Q2)
    (patchMaps : List (Q2 → Q2)) (atlasSize : Q2) (k : Nat)
    (hk : k < tCoords.length) :
    (mapStage faces tCoords patchMaps atlasSize).vals.getD k (0, 0)
      = match (touchList faces).find? (fun t => t.2 == k) with
        | some t => mapF patchMaps atlasSize t.1 (tCoords.getD k (0, 0))
        | none => tCoords.getD k (0, 0) := by
  unfold mapStage
  exact markPass_vals_getD _ _ _ _ k hk
    (by rw [List.length_replicate]; exact hk) (getD_replicate _ _ _)

/-- Claim C9 witness: the remap-once theorem applied to one face referencing
one coordinate with a concrete patch transform. -/
theorem mapStage_maps_once_witness :
    (0 < ([((1 : ℚ), (2 : ℚ))] : List Q2).length)
    ∧ (mapStage [⟨0, 0, 0, 0, 0, 0, 0⟩] [((1 : ℚ), (2 : ℚ))]
          [fun p => p] ((2 : ℚ), (2 : ℚ))).vals.getD 0 (0, 0)
        = match (touchList [⟨0, 0, 0, 0, 0, 0, 0⟩]).find? (fun t => t.2 == 0) with
          | some t => mapF [fun p => p] ((2 : ℚ), (2 : ℚ)) t.1
              (([((1 : ℚ), (2 : ℚ))] : List Q2).getD 0 (0, 0))
          | none => ([((1 : ℚ), (2 : ℚ))] : List Q2).getD 0 (0, 0) :=
  ⟨by decide,
   mapStage_maps_once [⟨0, 0, 0, 0, 0, 0, 0⟩] [((1 : ℚ), (2 : ℚ))]
     [fun p => p] ((2 : ℚ), (2 : ℚ)) 0 (by decide)⟩

/-- Claim C5 (amended): rebuild does not flag shared coordinate indices; the
expand pass visits each index at most once, so the first face to touch a
coordinate defines its scale through its own region, and later faces, even
with a different imageId, are skipped silently. -/
theorem expandStage_first_touch (sm : SubMesh) (txSize : Int × Int) (k : Nat)
    (hk : k < sm.mesh.tCoords.length) :
    (expandStage sm txSize).vals.getD k (0, 0)
      = match (touchList sm.mesh.faces).find? (fun t => t.2 == k) with
        | some t => expandF (regionsPx sm txSize) t.1 (sm.mesh.tCoords.getD k (0, 0))
        | none => sm.mesh.tCoords.getD k (0, 0) := by
  unfold expandStage
  exact markPass_vals_getD _ _ _ _ k hk
    (by rw [List.length_replicate]; exact hk) (getD_replicate _ _ _)

/-- Claim C5 witness: the first-touch theorem applied to the concrete
submesh whose single coordinate is shared by faces of different imageId. -/
theorem expandStage_first_touch_witness :
    (0 < smShared.mesh.tCoords.length)
    ∧ (expandStage smShared (65535, 65535)).vals.getD 0 (0, 0)
        = match (touchList smShared.mesh.faces).find? (fun t => t.2 == 0) with
          | some t => expandF (regionsPx smShared (65535, 65535)) t.1
              (smShared.mesh.tCoords.getD 0 (0, 0))
          | none => smShared.mesh.tCoords.getD 0 (0, 0) :=
  ⟨by decide, expandStage_first_touch smShared (65535, 65535) 0 (by decide)⟩

/-- Claim C5 counterexample: no TextureLayoutError exists anywhere in
rebuild; on a submesh whose single coordinate index is shared by two faces
with different imageId the expand pass returns normally, the coordinate ends
scaled by the first face's region, and the second face's UV patch is never
updated: the conflict is silently resolved by first touch, not flagged. -/
theorem expandStage_shared_index_silent :
    (expandStage smShared (65535, 65535)).vals.getD 0 (0, 0)
      = remapTc (sizeOfE (remapRegion (65535, 65535) ⟨(0, 0), (2, 2)⟩)) (1, 1)
    ∧ (expandStage smShared (65535, 65535)).aux.getD 1 invalidExtents = invalidExtents
    ∧ (expandStage smShared (65535, 65535)).seen = [true] :=
  ⟨rfl, by decide, rfl⟩

/-- Claim C4 (amended): after rebuild every face of the emitted submesh has
imageId zero, and the Region list is carried over unchanged rather than
cleared. -/
theorem rebuild_resets_imageId (sm : SubMesh) (txSize : Int × Int)
    (patchMaps : List (Q2 → Q2)) (atlasSize : Q2) :
    ((rebuild sm txSize patchMaps atlasSize).mesh.faces.all
        (fun fc => fc.imageId == 0)) = true
    ∧ (rebuild sm txSize patchMaps atlasSize).regions = sm.regions := by
  constructor
  · rw [List.all_eq_true]
    intro fc hfc
    have hfaces : (rebuild sm txSize patchMaps atlasSize).mesh.faces
        = sm.mesh.faces.map resetImageId := rfl
    rw [hfaces] at hfc
    rcases List.mem_map.mp hfc with ⟨fc0, _, hf⟩
    subst hf
    rfl
  · rfl

/-- Claim C4 counterexample: rebuild leaves the Region list in place: the
submesh emitted for a concrete input with two Regions still carries both, so
the emitted submesh does not have an empty regions sequence. -/
theorem rebuild_keeps_regions :
    (rebuild smShared (65535, 65535) [] (1, 1)).regions
      = [⟨(0, 0), (2, 2)⟩, ⟨(0, 0), (4, 4)⟩]
    ∧ (rebuild smShared (65535, 65535) [] (1, 1)).regions ≠ [] :=
  ⟨rfl, by decide⟩

/-- Claim C10: rebuild indexes the per-region containers by each face's
imageId and the coordinate containers by each face's three coordinate
indices without checks; under the precondition that every face's imageId is
below the region count and its coordinate indices below the coordinate
count, every access of both loops is in bounds (the patch vector length
equals the region count by construction before packing). -/
theorem rebuildAccesses_inBounds (sm : SubMesh) (txSize : Int × Int)
    (patchMaps : List (Q2 → Q2))
    (hlen : patchMaps.length = sm.regions.length)
    (hpre : ∀ fc ∈ sm.mesh.faces, fc.imageId < sm.regions.length
      ∧ fc.ta < sm.mesh.tCoords.length ∧ fc.tb < sm.mesh.tCoords.length
      ∧ fc.tc < sm.mesh.tCoords.length) :
    ∀ a ∈ rebuildAccesses sm, accInBounds sm txSize patchMaps a = true := by
  intro a ha
  rcases List.mem_append.mp ha with hside | hside
  · rcases List.mem_flatMap.mp hside with ⟨fc, hfc, hmem⟩
    obtain ⟨h1, h2, h3, h4⟩ := hpre fc hfc
    unfold faceAccessesExpand at hmem
    simp only [List.mem_cons, List.not_mem_nil, or_false] at hmem
    rcases hmem with rfl | rfl | rfl | rfl | rfl | rfl | rfl | rfl
    all_goals simp only [accInBounds, regionsPx, List.length_map,
      List.length_replicate, decide_eq_true_eq]
    all_goals omega
  · rcases List.mem_flatMap.mp hside with ⟨fc, hfc, hmem⟩
    obtain ⟨h1, h2, h3, h4⟩ := hpre fc hfc
    unfold faceAccessesMap at hmem
    simp only [List.mem_cons, List.not_mem_nil, or_false] at hmem
    rcases hmem with rfl | rfl | rfl | rfl | rfl | rfl | rfl
    all_goals simp only [accInBounds, regionsPx, List.length_map,
      List.length_replicate, decide_eq_true_eq]
    all_goals omega

/-- Claim C10 witness: the bounds theorem applied to the concrete shared
submesh with one patch transform per region. -/
theorem rebuildAccesses_inBounds_witness :
    (([fun p => p, fun p => p] : List (Q2 → Q2)).length = smShared.regions.length
      ∧ (∀ fc ∈ smShared.mesh.faces, fc.imageId < smShared.regions.length
        ∧ fc.ta < smShared.mesh.tCoords.length
        ∧ fc.tb < smShared.mesh.tCoords.length
        ∧ fc.tc < smShared.mesh.tCoords.length))
    ∧ (∀ a ∈ rebuildAccesses smShared,
        accInBounds smShared (65535, 65535) ([fun p => p, fun p => p] : List (Q2 → Q2)) a
          = true) :=
  ⟨⟨by decide, by decide⟩,
   rebuildAccesses_inBounds smShared (65535, 65535) [fun p => p, fun p => p]
     (by decide) (by decide)⟩

theorem guard_ok {x b : Int} (h0 : 0 ≤ x) (h1 : x < b) : ¬(x < 0 ∨ b ≤ x) :=
  fun h => h.elim (fun hh => absurd h0 (not_le.mpr hh)) (fun hh => absurd h1 (not_lt.mpr hh))

theorem srcY_shift (uvRect dstRect : RectZ) (dy : Int) :
    srcY uvRect dstRect (dstRect.point.2 + dy)
      = uvRect.point.2 + Int.tmod (uvRect.point.2 + dy) uvRect.size.2 := by
  unfold srcY
  have harg : dstRect.point.2 + dy - (dstRect.point.2 - uvRect.point.2)
      = uvRect.point.2 + dy := by ring
  rw [harg]

theorem srcX_shift (uvRect dstRect : RectZ) (dx : Int) :
    srcX uvRect dstRect (dstRect.point.1 + dx)
      = uvRect.point.1 + Int.tmod (uvRect.point.1 + dx) uvRect.size.1 := by
  unfold srcX
  have harg : dstRect.point.1 + dx - (dstRect.point.1 - uvRect.point.1)
      = uvRect.point.1 + dx := by ring
  rw [harg]

theorem mem_rowOps (atlasSize txSize : Int × Int) (uvRect dstRect : RectZ) (j : Int)
    (op : (Int × Int) × (Int × Int)) :
    op ∈ rowOps atlasSize txSize uvRect dstRect j
      ↔ ¬(j < 0 ∨ atlasSize.2 ≤ j)
        ∧ ¬(srcY uvRect dstRect j < 0 ∨ txSize.2 ≤ srcY uvRect dstRect j)
        ∧ ∃ di : Nat, di < dstRect.size.1.toNat
          ∧ ¬(dstRect.point.1 + (di : Int) < 0 ∨ atlasSize.1 ≤ dstRect.point.1 + (di : Int))
          ∧ ¬(srcX uvRect dstRect (dstRect.point.1 + (di : Int)) < 0
              ∨ txSize.1 ≤ srcX uvRect dstRect (dstRect.point.1 + (di : Int)))
          ∧ op = ((dstRect.point.1 + (di : Int), j),
              (srcX uvRect dstRect (dstRect.point.1 + (di : Int)), srcY uvRect dstRect j)) := by
  unfold rowOps
  by_cases h1 : j < 0 ∨ atlasSize.2 ≤ j
  · rw [if_pos h1]
    simp [h1]
  · rw [if_neg h1]
    by_cases h2 : srcY uvRect dstRect j < 0 ∨ txSize.2 ≤ srcY uvRect dstRect j
    · rw [if_pos h2]
      simp [h1, h2]
    · rw [if_neg h2]
      constructor
      · intro hmem
        obtain ⟨di, hdi, hbody⟩ := List.mem_filterMap.mp hmem
        rw [List.mem_range] at hdi
        by_cases c3 : dstRect.point.1 + (di : Int) < 0
            ∨ atlasSize.1 ≤ dstRect.point.1 + (di : Int)
        · rw [if_pos c3] at hbody
          simp at hbody
        · rw [if_neg c3] at hbody
          by_cases c4 : srcX uvRect dstRect (dstRect.point.1 + (di : Int)) < 0
              ∨ txSize.1 ≤ srcX uvRect dstRect (dstRect.point.1 + (di : Int))
          · rw [if_pos c4] at hbody
            simp at hbody
          · rw [if_neg c4] at hbody
            exact ⟨h1, h2, di, hdi, c3, c4, (Option.some.inj hbody).symm⟩
      · rintro ⟨-, -, di, hdi, c3, c4, rfl⟩
        exact List.mem_filterMap.mpr
          ⟨di, List.mem_range.mpr hdi, by rw [if_neg c3, if_neg c4]⟩

theorem mem_copyPatchOps (atlasSize txSize : Int × Int) (uvRect dstRect : RectZ)
    (op : (Int × Int) × (Int × Int)) :
    op ∈ copyPatchOps atlasSize txSize uvRect dstRect
      ↔ ∃ dj : Nat, dj < dstRect.size.2.toNat
          ∧ op ∈ rowOps atlasSize txSize uvRect dstRect (dstRect.point.2 + (dj : Int)) := by
  unfold copyPatchOps
  constructor
  · intro h
    obtain ⟨dj, hdj, hmem⟩ := List.mem_flatMap.mp h
    exact ⟨dj, List.mem_range.mp hdj, hmem⟩
  · rintro ⟨dj, hdj, hmem⟩
    exact List.mem_flatMap.mpr ⟨dj, List.mem_range.mpr hdj, hmem⟩

/-- Claim C6: every pixel the copy loop writes has its destination inside the
atlas and its source inside the source image, and an iteration whose
destination or computed source coordinate is out of range writes nothing, so
that destination pixel keeps the background value as far as this patch is
concerned. -/
theorem copyPatch_bounds (atlasSize txSize : Int × Int) (uvRect dstRect : RectZ)
    (dj di : Nat) (bg : Int) (tx : Int × Int → Int)
    (hdj : dj < dstRect.size.2.toNat) (hdi : di < dstRect.size.1.toNat)
    (hoob : dstRect.point.2 + (dj : Int) < 0 ∨ atlasSize.2 ≤ dstRect.point.2 + (dj : Int)
      ∨ srcY uvRect dstRect (dstRect.point.2 + (dj : Int)) < 0
      ∨ txSize.2 ≤ srcY uvRect dstRect (dstRect.point.2 + (dj : Int))
      ∨ dstRect.point.1 + (di : Int) < 0 ∨ atlasSize.1 ≤ dstRect.point.1 + (di : Int)
      ∨ srcX uvRect dstRect (dstRect.point.1 + (di : Int)) < 0
      ∨ txSize.1 ≤ srcX uvRect dstRect (dstRect.point.1 + (di : Int))) :
    (∀ op ∈ copyPatchOps atlasSize txSize uvRect dstRect,
      0 ≤ op.1.1 ∧ op.1.1 < atlasSize.1 ∧ 0 ≤ op.1.2 ∧ op.1.2 < atlasSize.2
      ∧ 0 ≤ op.2.1 ∧ op.2.1 < txSize.1 ∧ 0 ≤ op.2.2 ∧ op.2.2 < txSize.2)
    ∧ (∀ s, ((dstRect.point.1 + (di : Int), dstRect.point.2 + (dj : Int)), s)
        ∉ copyPatchOps atlasSize txSize uvRect dstRect)
    ∧ applyOps bg tx (copyPatchOps atlasSize txSize uvRect dstRect)
        (dstRect.point.1 + (di : Int), dstRect.point.2 + (dj : Int)) = bg := by
  have hnot : ∀ s, ((dstRect.point.1 + (di : Int), dstRect.point.2 + (dj : Int)), s)
      ∉ copyPatchOps atlasSize txSize uvRect dstRect := by
    intro s hmem
    obtain ⟨dj', hdj', hrow⟩ := (mem_copyPatchOps atlasSize txSize uvRect dstRect _).mp hmem
    obtain ⟨h1, h2, di', hdi', c3, c4, heq⟩ :=
      (mem_rowOps atlasSize txSize uvRect dstRect _ _).mp hrow
    simp only [Prod.mk.injEq] at heq
    obtain ⟨⟨hx, hy⟩, -⟩ := heq
    have hdieq : di' = di := by omega
    have hdjeq : dj' = dj := by omega
    subst hdieq
    subst hdjeq
    rcases hoob with h | h | h | h | h | h | h | h
    · exact h1 (Or.inl h)
    · exact h1 (Or.inr h)
    · exact h2 (Or.inl h)
    · exact h2 (Or.inr h)
    · exact c3 (Or.inl h)
    · exact c3 (Or.inr h)
    · exact c4 (Or.inl h)
    · exact c4 (Or.inr h)
  refine ⟨?_, hnot, ?_⟩
  · intro op hop
    obtain ⟨dj', hdj', hrow⟩ := (mem_copyPatchOps atlasSize txSize uvRect dstRect op).mp hop
    obtain ⟨h1, h2, di', hdi', c3, c4, heq⟩ :=
      (mem_rowOps atlasSize txSize uvRect dstRect _ op).mp hrow
    subst heq
    push_neg at h1 h2 c3 c4
    exact ⟨c3.1, c3.2, h1.1, h1.2, c4.1, c4.2, h2.1, h2.2⟩
  · unfold applyOps
    have hnone : (copyPatchOps atlasSize txSize uvRect dstRect).find?
        (fun op => op.1 == (dstRect.point.1 + (di : Int), dstRect.point.2 + (dj : Int)))
          = none := by
      apply List.find?_eq_none.mpr
      intro op hop hbeq
      have hfst : op.1 = (dstRect.point.1 + (di : Int), dstRect.point.2 + (dj : Int)) :=
        beq_iff_eq.mp hbeq
      have hops : (op.1, op.2) ∈ copyPatchOps atlasSize txSize uvRect dstRect := hop
      rw [hfst] at hops
      exact hnot op.2 hops
    rw [hnone]

/-- Claim C6 witness: the bounds-and-skip theorem applied to a concrete patch
whose second destination row falls outside a one-pixel-high atlas. -/
theorem copyPatch_bounds_witness :
    ((1 : Nat) < (RectZ.mk (0, 0) (2, 2)).size.2.toNat
      ∧ (0 : Nat) < (RectZ.mk (0, 0) (2, 2)).size.1.toNat
      ∧ ((RectZ.mk (0, 0) (2, 2)).point.2 + ((1 : Nat) : Int) < 0
        ∨ (1 : Int) ≤ (RectZ.mk (0, 0) (2, 2)).point.2 + ((1 : Nat) : Int)
        ∨ srcY ⟨(0, 0), (2, 2)⟩ ⟨(0, 0), (2, 2)⟩
            ((RectZ.mk (0, 0) (2, 2)).point.2 + ((1 : Nat) : Int)) < 0
        ∨ (10 : Int) ≤ srcY ⟨(0, 0), (2, 2)⟩ ⟨(0, 0), (2, 2)⟩
            ((RectZ.mk (0, 0) (2, 2)).point.2 + ((1 : Nat) : Int))
        ∨ (RectZ.mk (0, 0) (2, 2)).point.1 + ((0 : Nat) : Int) < 0
        ∨ (1 : Int) ≤ (RectZ.mk (0, 0) (2, 2)).point.1 + ((0 : Nat) : Int)
        ∨ srcX ⟨(0, 0), (2, 2)⟩ ⟨(0, 0), (2, 2)⟩
            ((RectZ.mk (0, 0) (2, 2)).point.1 + ((0 : Nat) : Int)) < 0
        ∨ (10 : Int) ≤ srcX ⟨(0, 0), (2, 2)⟩ ⟨(0, 0), (2, 2)⟩
            ((RectZ.mk (0, 0) (2, 2)).point.1 + ((0 : Nat) : Int))))
    ∧ ((∀ op ∈ copyPatchOps (1, 1) (10, 10) ⟨(0, 0), (2, 2)⟩ ⟨(0, 0), (2, 2)⟩,
        0 ≤ op.1.1 ∧ op.1.1 < 1 ∧ 0 ≤ op.1.2 ∧ op.1.2 < 1
        ∧ 0 ≤ op.2.1 ∧ op.2.1 < 10 ∧ 0 ≤ op.2.2 ∧ op.2.2 < 10)
      ∧ (∀ s, (((RectZ.mk (0, 0) (2, 2)).point.1 + ((0 : Nat) : Int),
            (RectZ.mk (0, 0) (2, 2)).point.2 + ((1 : Nat) : Int)), s)
          ∉ copyPatchOps (1, 1) (10, 10) ⟨(0, 0), (2, 2)⟩ ⟨(0, 0), (2, 2)⟩)
      ∧ applyOps 7 (fun p => p.1) (copyPatchOps (1, 1) (10, 10) ⟨(0, 0), (2, 2)⟩ ⟨(0, 0), (2, 2)⟩)
          ((RectZ.mk (0, 0) (2, 2)).point.1 + ((0 : Nat) : Int),
            (RectZ.mk (0, 0) (2, 2)).point.2 + ((1 : Nat) : Int)) = 7) :=
  ⟨⟨by decide, by decide, by decide⟩,
   copyPatch_bounds (1, 1) (10, 10) ⟨(0, 0), (2, 2)⟩ ⟨(0, 0), (2, 2)⟩ 1 0 7 (fun p => p.1)
     (by decide) (by decide) (by decide)⟩

/-- Claim C1 (amended): the pixel copied to destination offset dx, dy from
the placed rectangle's origin is read from source coordinate
srcOrigin plus the truncating modulo of srcOrigin plus offset by the source
size, per axis: the wraparound is phase shifted by the source origin, and it
agrees with the claimed srcOrigin plus offset-modulo-size addressing exactly
when the source origin is divisible by the source size on each axis. -/
theorem copyPatch_src_formula (atlasSize txSize : Int × Int) (uvRect dstRect : RectZ)
    (dx dy : Int)
    (hdx0 : 0 ≤ dx) (hdx : dx < dstRect.size.1) (hdy0 : 0 ≤ dy) (hdy : dy < dstRect.size.2)
    (hj0 : 0 ≤ dstRect.point.2 + dy) (hj1 : dstRect.point.2 + dy < atlasSize.2)
    (hi0 : 0 ≤ dstRect.point.1 + dx) (hi1 : dstRect.point.1 + dx < atlasSize.1)
    (hjs0 : 0 ≤ uvRect.point.2 + Int.tmod (uvRect.point.2 + dy) uvRect.size.2)
    (hjs1 : uvRect.point.2 + Int.tmod (uvRect.point.2 + dy) uvRect.size.2 < txSize.2)
    (his0 : 0 ≤ uvRect.point.1 + Int.tmod (uvRect.point.1 + dx) uvRect.size.1)
    (his1 : uvRect.point.1 + Int.tmod (uvRect.point.1 + dx) uvRect.size.1 < txSize.1) :
    ((dstRect.point.1 + dx, dstRect.point.2 + dy),
      (uvRect.point.1 + Int.tmod (uvRect.point.1 + dx) uvRect.size.1,
       uvRect.point.2 + Int.tmod (uvRect.point.2 + dy) uvRect.size.2))
      ∈ copyPatchOps atlasSize txSize uvRect dstRect
    ∧ (∀ op ∈ copyPatchOps atlasSize txSize uvRect dstRect,
        op.2 = (srcX uvRect dstRect op.1.1, srcY uvRect dstRect op.1.2))
    ∧ srcX uvRect dstRect (dstRect.point.1 + dx)
        = uvRect.point.1 + Int.tmod (uvRect.point.1 + dx) uvRect.size.1
    ∧ srcY uvRect dstRect (dstRect.point.2 + dy)
        = uvRect.point.2 + Int.tmod (uvRect.point.2 + dy) uvRect.size.2 := by
  refine ⟨?_, ?_, srcX_shift uvRect dstRect dx, srcY_shift uvRect dstRect dy⟩
  · apply (mem_copyPatchOps atlasSize txSize uvRect dstRect _).mpr
    refine ⟨dy.toNat, by omega, ?_⟩
    rw [Int.toNat_of_nonneg hdy0]
    apply (mem_rowOps atlasSize txSize uvRect dstRect _ _).mpr
    refine ⟨guard_ok hj0 hj1, ?_, dx.toNat, by omega, ?_, ?_, ?_⟩
    · rw [srcY_shift uvRect dstRect dy]
      exact guard_ok hjs0 hjs1
    · rw [Int.toNat_of_nonneg hdx0]
      exact guard_ok hi0 hi1
    · rw [Int.toNat_of_nonneg hdx0, srcX_shift uvRect dstRect dx]
      exact guard_ok his0 his1
    · rw [Int.toNat_of_nonneg hdx0, srcX_shift uvRect dstRect dx,
        srcY_shift uvRect dstRect dy]
  · intro op hop
    obtain ⟨dj', hdj', hrow⟩ := (mem_copyPatchOps atlasSize txSize uvRect dstRect op).mp hop
    obtain ⟨-, -, di', -, -, -, heq⟩ :=
      (mem_rowOps atlasSize txSize uvRect dstRect _ op).mp hrow
    subst heq
    rfl

/-- Claim C1 witness: the shifted-wraparound formula applied to the concrete
patch with source origin 3, 3 and source size 2 by 2 placed at the atlas
origin. -/
theorem copyPatch_src_formula_witness :
    ((0 : Int) ≤ 0 ∧ (0 : Int) < (RectZ.mk (0, 0) (2, 2)).size.1
      ∧ 0 ≤ (RectZ.mk (0, 0) (2, 2)).point.2 + (0 : Int)
      ∧ (RectZ.mk (0, 0) (2, 2)).point.2 + (0 : Int) < (2 : Int)
      ∧ 0 ≤ (RectZ.mk (3, 3) (2, 2)).point.2
          + Int.tmod ((RectZ.mk (3, 3) (2, 2)).point.2 + 0) (RectZ.mk (3, 3) (2, 2)).size.2
      ∧ (RectZ.mk (3, 3) (2, 2)).point.2
          + Int.tmod ((RectZ.mk (3, 3) (2, 2)).point.2 + 0) (RectZ.mk (3, 3) (2, 2)).size.2
        < (10 : Int))
    ∧ (((RectZ.mk (0, 0) (2, 2)).point.1 + 0, (RectZ.mk (0, 0) (2, 2)).point.2 + 0),
        ((RectZ.mk (3, 3) (2, 2)).point.1
          + Int.tmod ((RectZ.mk (3, 3) (2, 2)).point.1 + 0) (RectZ.mk (3, 3) (2, 2)).size.1,
         (RectZ.mk (3, 3) (2, 2)).point.2
          + Int.tmod ((RectZ.mk (3, 3) (2, 2)).point.2 + 0) (RectZ.mk (3, 3) (2, 2)).size.2))
        ∈ copyPatchOps (2, 2) (10, 10) ⟨(3, 3), (2, 2)⟩ ⟨(0, 0), (2, 2)⟩ :=
  ⟨⟨by decide, by decide, by decide, by decide, by decide, by decide⟩,
   (copyPatch_src_formula (2, 2) (10, 10) ⟨(3, 3), (2, 2)⟩ ⟨(0, 0), (2, 2)⟩ 0 0
     (by decide) (by decide) (by decide) (by decide) (by decide) (by decide)
     (by decide) (by decide) (by decide) (by decide) (by decide) (by decide)).1⟩

/-- Claim C1 counterexample: with source origin 3, 3, source size 2 by 2 and
destination origin 0, 0, the destination pixel at offset 0, 0 is copied from
source pixel 4, 4, not from the claimed source origin plus offset modulo
size, which would be 3, 3: the wraparound is not taken relative to the patch
origin. -/
theorem copyPatch_wrap_shifted_counterexample :
    (copyPatchOps (2, 2) (10, 10) ⟨(3, 3), (2, 2)⟩ ⟨(0, 0), (2, 2)⟩).find?
        (fun op => op.1 == ((0 : Int), (0 : Int))) = some ((0, 0), (4, 4))
    ∧ ((4 : Int), (4 : Int)) ≠ (3 + Int.tmod 0 2, 3 + Int.tmod 0 2) :=
  ⟨by decide, by decide⟩

end Slpk
